import Mathlib

/-!
# Sentry backup core: a shallow embedding

This development embeds the backup core of the Sentry repository
(`src-tauri/src/backup/{engine,manifest,scheduler}.rs`) in Lean and proves
the specification's claims about it.

Modelling conventions:
* `DateTime<Utc>` instants are `Int` (minutes or abstract ticks since an epoch).
* Paths are `String`s (relative paths inside manifests), except for the
  chunk splitter where the Rust `Path::with_extension` logic matters and a
  path is a stem plus an extension.
* The filesystem under `<data_dir>/manifests/` is a `Store`: an association
  list of manifest body documents keyed by id (a stored body is
  `Option BackupManifest`, `none` standing for a present but
  non-deserializable document) plus the state of `index.json`
  (`none` = file missing, `some none` = present but non-deserializable,
  `some (some idx)` = parseable).
* Fallible Rust functions returning `Result<_, BackupError>` become
  `Except BackupError _`.
-/

namespace Sentry

/-- `BackupError` from `engine.rs` (the payloads of the I/O and zip variants
are reduced to message strings). -/
inductive BackupError where
  | io : String → BackupError
  | zip : String → BackupError
  | invalidPath : String → BackupError
  | cancelled : BackupError
  | manifest : String → BackupError
deriving DecidableEq, Repr

/-- `FileEntry` from `manifest.rs`. -/
structure FileEntry where
  path : String
  relative_path : String
  size : Nat
  hash : String
  modified : Int
  backed_up_at : Option Int
deriving DecidableEq, Repr

/-- `CloudChunk` from `manifest.rs`. -/
structure CloudChunk where
  index : Nat
  file_id : String
  size : Nat
  hash : String
deriving DecidableEq, Repr

/-- `CloudLocation` from `manifest.rs`. -/
structure CloudLocation where
  provider : String
  file_id : String
  folder_id : String
  chunks : List CloudChunk
deriving DecidableEq, Repr

/-- `BackupManifest` from `manifest.rs`. -/
structure BackupManifest where
  id : String
  backup_set_id : String
  created_at : Int
  files : List FileEntry
  total_size : Nat
  compressed_size : Nat
  cloud_location : Option CloudLocation
  retention_until : Option Int
deriving DecidableEq, Repr

/-- `ManifestSummary` from `manifest.rs`. -/
structure ManifestSummary where
  id : String
  backup_set_id : String
  created_at : Int
  file_count : Nat
  total_size : Nat
  compressed_size : Nat
  is_uploaded : Bool
deriving DecidableEq, Repr

/-- `ManifestIndex` from `manifest.rs`. -/
structure ManifestIndex where
  manifests : List ManifestSummary
  last_updated : Int
deriving DecidableEq, Repr

/-- The on-disk state under `<data_dir>/manifests/`: the body documents
`<id>.json` (a stored value `none` models a present but non-deserializable
document) and the `index.json` document (`none` = missing, `some none` =
present but non-deserializable). -/
structure Store where
  bodies : List (String × Option BackupManifest)
  index : Option (Option ManifestIndex)
deriving DecidableEq, Repr

/-- The stored body document for `id`, if the file `<id>.json` exists. -/
def lookupBody (st : Store) (id : String) : Option (Option BackupManifest) :=
  (st.bodies.find? (fun b => b.1 == id)).map (·.2)

/-- `ManifestManager::load_manifest_by_id`: a direct body lookup. A missing
file is `Ok(None)`; a present but non-deserializable body is a
`Manifest` error. -/
def loadManifestById (st : Store) (id : String) :
    Except BackupError (Option BackupManifest) :=
  match lookupBody st id with
  | none => .ok none
  | some none => .error (.manifest "deserialize")
  | some (some m) => .ok (some m)

/-- `ManifestManager::load_index`. A missing `index.json` yields a fresh
empty index stamped `now`; a present but non-deserializable one is a
`Manifest` error. -/
def load_index (st : Store) (now : Int) : Except BackupError ManifestIndex :=
  match st.index with
  | none => .ok { manifests := [], last_updated := now }
  | some none => .error (.manifest "deserialize")
  | some (some idx) => .ok idx

/-- The summary `update_index` derives from a manifest. -/
def summaryOf (m : BackupManifest) : ManifestSummary :=
  { id := m.id
    backup_set_id := m.backup_set_id
    created_at := m.created_at
    file_count := m.files.length
    total_size := m.total_size
    compressed_size := m.compressed_size
    is_uploaded := m.cloud_location.isSome }

/-- `ManifestManager::save_manifest`: write the body `<id>.json` (overwriting
any previous document of that id), then `update_index`: reload the index,
drop any old entry with the same id, append the fresh summary and rewrite
`index.json`. -/
def save_manifest (st : Store) (m : BackupManifest) (now : Int) :
    Except BackupError Store := do
  let st1 : Store :=
    { st with bodies := st.bodies.filter (fun b => b.1 != m.id) ++ [(m.id, some m)] }
  let idx ← load_index st1 now
  let idx1 : ManifestIndex :=
    { manifests := idx.manifests.filter (fun s => s.id != m.id) ++ [summaryOf m]
      last_updated := now }
  .ok { st1 with index := some (some idx1) }

/-- `ManifestManager::delete_manifest`: remove the body file if present, then
reload the index, drop the entry with this id and rewrite `index.json`. -/
def delete_manifest (st : Store) (id : String) (now : Int) :
    Except BackupError Store := do
  let st1 : Store := { st with bodies := st.bodies.filter (fun b => b.1 != id) }
  let idx ← load_index st1 now
  let idx1 : ManifestIndex :=
    { manifests := idx.manifests.filter (fun s => s.id != id)
      last_updated := now }
  .ok { st1 with index := some (some idx1) }

/-- Whether the index entry `s` points at a live body whose
`retention_until` has passed `now` — the condition under which
`cleanup_expired` deletes it. -/
def expiredIn (st : Store) (now : Int) (s : ManifestSummary) : Bool :=
  match lookupBody st s.id with
  | some (some m) =>
    match m.retention_until with
    | some r => r < now
    | none => false
  | _ => false

/-- The loop body of `ManifestManager::cleanup_expired` over the snapshot of
index entries taken at entry. -/
def cleanupGo (now : Int) : List ManifestSummary → Store →
    Except BackupError (Store × List String)
  | [], st => .ok (st, [])
  | s :: rest, st => do
    let mb ← loadManifestById st s.id
    match mb with
    | some m =>
      match m.retention_until with
      | some r =>
        if r < now then do
          let st1 ← delete_manifest st s.id now
          let (st2, ds) ← cleanupGo now rest st1
          .ok (st2, s.id :: ds)
        else cleanupGo now rest st
      | none => cleanupGo now rest st
    | none => cleanupGo now rest st

/-- `ManifestManager::cleanup_expired`: load the index once, then walk its
entries, loading each body and deleting those whose `retention_until`
precedes `now`; returns the deleted ids in index order. -/
def cleanup_expired (st : Store) (now : Int) :
    Except BackupError (Store × List String) := do
  let idx ← load_index st now
  cleanupGo now idx.manifests st

/-- `ManifestManager::update_cloud_location`: load the manifest by id; when
present, attach the cloud location and re-save it; an unknown id is silently
ignored. -/
def update_cloud_location (st : Store) (id : String) (loc : CloudLocation)
    (now : Int) : Except BackupError Store := do
  let mb ← loadManifestById st id
  match mb with
  | some m => save_manifest st { m with cloud_location := some loc } now
  | none => .ok st

/-- Rust `Iterator::max_by_key` on `created_at`: the last element among
equal maxima wins. -/
def maxByCreated (l : List ManifestSummary) : Option ManifestSummary :=
  l.foldl
    (fun acc s =>
      match acc with
      | none => some s
      | some a => if a.created_at ≤ s.created_at then some s else some a)
    none

/-- `ManifestManager::load_manifest`: resolve the summary with the greatest
`created_at` for the set (last wins on ties), then load its body; a summary
whose body file is missing resolves to `Ok(None)`. -/
def load_manifest (st : Store) (backup_set_id : String) (now : Int) :
    Except BackupError (Option BackupManifest) := do
  let idx ← load_index st now
  match maxByCreated (idx.manifests.filter (fun s => s.backup_set_id == backup_set_id)) with
  | some summary =>
    match lookupBody st summary.id with
    | none => .ok none
    | some none => .error (.manifest "deserialize")
    | some (some m) => .ok (some m)
  | none => .ok none

/-- The `HashMap<PathBuf, String>` built by `get_changed_files` from the
prior manifest's files: inserting in order, a later entry with the same
`relative_path` overwrites an earlier one, so lookup finds the last
occurrence. -/
def backedUpHash (files : List FileEntry) (p : String) : Option String :=
  (files.reverse.find? (fun f => f.relative_path == p)).map (·.hash)

/-- `BackupEngine::get_changed_files`: load the latest manifest for the set,
then keep exactly the scanned entries whose `relative_path` is absent from
it or present with a different hash, preserving scan order. -/
def get_changed_files (st : Store) (backup_set_id : String) (now : Int)
    (current_files : List FileEntry) : Except BackupError (List FileEntry) := do
  let manifest ← load_manifest st backup_set_id now
  let prior := (manifest.map (·.files)).getD []
  .ok (current_files.filter (fun f =>
    match backedUpHash prior f.relative_path with
    | some h => h != f.hash
    | none => true))

/-! ## Scanner (`BackupEngine::scan_directory`)

The walk produced by `WalkDir` is a list of `Except` items (`.error` for an
unreadable entry, which `filter_map(|e| e.ok())` silently drops). Per-path
filesystem metadata and content reads are supplied as functions into
`Except`, and SHA-256 is an abstract digest of the content bytes. -/

/-- A directory entry the walk yielded successfully. -/
structure DirEntry where
  path : String
  isDir : Bool
deriving DecidableEq, Repr

/-- Metadata of a file: its size and, when the platform reports it, its
modification time (`metadata.modified()` may fail without aborting). -/
structure FileMeta where
  size : Nat
  modified : Option Int
deriving DecidableEq, Repr

/-- Rust `str::contains` as substring containment on the characters. -/
def strContains (s pat : String) : Bool :=
  s.data.tails.any (fun t => pat.data.isPrefixOf t)

/-- The exclusion test of `scan_directory`: the full path contains a pattern
as a substring, or the bare filename does. The filename is supplied by the
walk model alongside the path. -/
def shouldExclude (excludes : List String) (path fileName : String) : Bool :=
  excludes.any (fun pat => strContains path pat || strContains fileName pat)

/-- The file name component of a path (`Path::file_name`), modelled as the
part after the last `/`. -/
def fileNameOf (path : String) : String :=
  ((path.splitOn "/").getLast? ).getD path

/-- `Path::strip_prefix(root).unwrap_or(path)` on string paths. -/
def stripPrefixOr (root path : String) : String :=
  if root.data.isPrefixOf path.data then
    String.mk (path.data.drop root.data.length)
  else path

/-- The per-entry work of `scan_directory` after the walk: skip directories
and excluded paths, then read metadata and content (each read aborting the
scan on error), hash the content, and build the `FileEntry`. -/
def scanGo (hashFn : List Nat → String) (now : Int) (root : String)
    (excludes : List String) (meta : String → Except String FileMeta)
    (readF : String → Except String (List Nat)) :
    List DirEntry → Except BackupError (List FileEntry)
  | [] => .ok []
  | e :: rest =>
    if e.isDir then scanGo hashFn now root excludes meta readF rest
    else if shouldExclude excludes e.path (fileNameOf e.path) then
      scanGo hashFn now root excludes meta readF rest
    else
      match meta e.path with
      | .error msg => .error (.io msg)
      | .ok md =>
        match readF e.path with
        | .error msg => .error (.io msg)
        | .ok content => do
          let entries ← scanGo hashFn now root excludes meta readF rest
          .ok ({ path := e.path
                 relative_path := stripPrefixOr root e.path
                 size := md.size
                 hash := hashFn content
                 modified := md.modified.getD now
                 backed_up_at := none } :: entries)

/-- `BackupEngine::scan_directory`: walk items that errored are dropped by
`filter_map(|e| e.ok())`; the survivors are processed in order by
`scanGo`. -/
def scan_directory (hashFn : List Nat → String) (now : Int) (root : String)
    (excludes : List String) (walk : List (Except String DirEntry))
    (meta : String → Except String FileMeta)
    (readF : String → Except String (List Nat)) :
    Except BackupError (List FileEntry) :=
  scanGo hashFn now root excludes meta readF
    (walk.filterMap (fun e => e.toOption))

/-! ## Archiver (`BackupEngine::create_archive`)

We model the progress-event stream the archive loop emits through its
callback. Reading a file streams exactly `size` bytes into the zip entry,
so `processed_bytes` advances by the entry's size once the file is done. -/

/-- `BackupStatus` from `engine.rs`. -/
inductive BackupStatus where
  | idle | scanning | compressing | uploading | completed | failed | cancelled
deriving DecidableEq, Repr

/-- `BackupProgress` from `engine.rs`. -/
structure BackupProgress where
  total_files : Nat
  processed_files : Nat
  total_bytes : Nat
  processed_bytes : Nat
  current_file : String
  status : BackupStatus
  error : Option String
deriving DecidableEq, Repr

/-- The archive loop of `create_archive`: for each file it first invokes the
progress callback with the counters as they stand (files and bytes already
completed), then streams the file and bumps the counters. -/
def archiveGo (tf tb : Nat) : Nat → Nat → List FileEntry → List BackupProgress
  | _, _, [] => []
  | pf, pb, f :: rest =>
    { total_files := tf, processed_files := pf, total_bytes := tb
      processed_bytes := pb, current_file := f.relative_path
      status := .compressing, error := none } ::
      archiveGo tf tb (pf + 1) (pb + f.size) rest

/-- The ordered list of progress events `create_archive` emits for a file
list: one `Compressing` event per file, in file order. -/
def archiveEvents (files : List FileEntry) : List BackupProgress :=
  archiveGo files.length ((files.map (·.size)).sum) 0 0 files

instance : Inhabited FileEntry :=
  ⟨{ path := "", relative_path := "", size := 0, hash := "", modified := 0,
     backed_up_at := none }⟩

/-- Modelled from the spec's words (§4.3), for comparison with
`archiveEvents`: "after each file, a progress event … is emitted" — the
event for the i-th file carries the counters with that file already
included. -/
def archiveEventsSpec (files : List FileEntry) : List BackupProgress :=
  (List.range files.length).map (fun i =>
    { total_files := files.length
      processed_files := i + 1
      total_bytes := (files.map (·.size)).sum
      processed_bytes := ((files.take (i + 1)).map (·.size)).sum
      current_file := ((files.drop i).headI).relative_path
      status := .compressing
      error := none })

/-! ## Chunk splitter (`BackupEngine::split_into_chunks`) -/

/-- A filesystem path as `Path::with_extension` sees it: a stem and an
extension (`""` when there is none). -/
structure FsPath where
  stem : String
  ext : String
deriving DecidableEq, Repr

/-- `Path::with_extension`. -/
def withExt (p : FsPath) (e : String) : FsPath :=
  { stem := p.stem, ext := e }

/-- `format!("part{:03}", i)`: zero-padded to at least three digits. -/
def partExt (i : Nat) : String :=
  if i < 10 then "part00" ++ toString i
  else if i < 100 then "part0" ++ toString i
  else "part" ++ toString i

/-- Cutting a byte list into blocks of `cs` bytes, the read loop of
`split_into_chunks`: each `read` fills the whole `chunk_size` buffer except
at end of file. (`cs = 0` never occurs; the engine fixes 10 MiB.) -/
def chunkify (cs : Nat) (l : List Nat) : List (List Nat) :=
  if h : cs = 0 ∨ l = [] then []
  else
    have : l.length - cs < l.length := by
      rcases Nat.eq_zero_or_pos cs with h0 | h0
      · exact absurd (Or.inl h0) h
      · have hl : l ≠ [] := fun hl => h (Or.inr hl)
        have : 0 < l.length := List.length_pos.mpr hl
        omega
    l.take cs :: chunkify cs (l.drop cs)
termination_by l.length
decreasing_by simpa using this

/-- `BackupEngine::split_into_chunks`: a container of at most `chunk_size`
bytes is returned as-is with no part files created; a larger one is cut into
`chunk_size` blocks, each written to `<archive>.partNNN`. Returns the list
of paths handed back and the list of part files created (path and bytes). -/
def split_into_chunks (chunk_size : Nat) (archive_path : FsPath)
    (content : List Nat) : List FsPath × List (FsPath × List Nat) :=
  if content.length ≤ chunk_size then ([archive_path], [])
  else
    let parts := chunkify chunk_size content
    let created := parts.enum.map (fun pc => (withExt archive_path (partExt pc.1), pc.2))
    (created.map (·.1), created)

/-! ## Scheduler (`Schedule::calculate_next_run`, Daily)

Instants are minutes since an epoch; a civil day is 1440 minutes. The local
timezone is a piecewise-constant UTC offset with one transition (the shape
of a single daylight-saving switch): `offBefore` applies to instants before
`transition`, `offAfter` from `transition` on. `chrono`'s
`Local.from_local_datetime` on a naive local time then resolves to the set
of instants mapping onto it: one (`single`), two (`ambiguous`, earliest
first), or none (`gap`, the spring-forward hole). -/

/-- A local timezone around one offset transition. -/
structure Timezone where
  offBefore : Int
  offAfter : Int
  transition : Int
deriving DecidableEq, Repr

/-- The UTC offset in force at instant `u`. -/
def localOffset (tz : Timezone) (u : Int) : Int :=
  if u < tz.transition then tz.offBefore else tz.offAfter

/-- The naive local wall-clock reading of instant `u`
(`DateTime::naive_local`). -/
def toLocalNaive (tz : Timezone) (u : Int) : Int :=
  u + localOffset tz u

/-- `chrono::LocalResult` for resolving a naive local time. -/
inductive LocalRes where
  | single (u : Int)
  | ambiguous (u1 u2 : Int)
  | gap
deriving DecidableEq, Repr

/-- `TimeZone::from_local_datetime` on naive time `n`: an instant `u` maps
onto `n` iff `u + localOffset u = n`; collect the candidates under each
offset, earliest first when both exist. -/
def fromLocalNaive (tz : Timezone) (n : Int) : LocalRes :=
  let u1 := n - tz.offBefore
  let u2 := n - tz.offAfter
  if u1 < tz.transition then
    if tz.transition ≤ u2 then .ambiguous (min u1 u2) (max u1 u2)
    else .single u1
  else
    if tz.transition ≤ u2 then .single u2
    else .gap

/-- The `ScheduleType::Daily` arm of `Schedule::calculate_next_run`:
today's occurrence of the configured time-of-day if still future on the
naive clock, else tomorrow's; then resolve the naive time to an instant,
taking the later instant when ambiguous, and on a spring-forward gap
reinterpreting the naive time as if it were UTC
(`next_naive.and_utc().timestamp()` round-tripped through the local zone is
exactly that instant, so the `unwrap_or_else(Local::now)` arm is dead
code). `dailyNextNaive` is the `next_naive` value the Daily arm computes. -/
def dailyNextNaive (tz : Timezone) (nowUtc : Int) (timeOfDay : Int) : Int :=
  let nowNaive := toLocalNaive tz nowUtc
  let todayRun := 1440 * (Int.fdiv nowNaive 1440) + timeOfDay
  if nowNaive < todayRun then todayRun else todayRun + 1440

/-- The resolution step of `calculate_next_run` applied to the Daily arm's
naive target: later instant when ambiguous, naive-reinterpreted-as-UTC in
the spring-forward gap. -/
def calculate_next_run_daily (tz : Timezone) (nowUtc : Int)
    (timeOfDay : Int) : Int :=
  match fromLocalNaive tz (dailyNextNaive tz nowUtc timeOfDay) with
  | .single u => u
  | .ambiguous u1 u2 => max u1 u2
  | .gap => dailyNextNaive tz nowUtc timeOfDay

/-! ## Theorems -/

/-- C2, counterexample: a present but non-deserializable `index.json` makes
`load_index` return a `Manifest` error — not the empty index the claim
promises. -/
theorem C2_cex_corrupt_index_errors :
    load_index { bodies := [], index := some none } 0
        = .error (.manifest "deserialize") ∧
      load_index { bodies := [], index := some none } 0
        ≠ .ok { manifests := [], last_updated := 0 } := by
  constructor
  · rfl
  · intro h
    simp [load_index] at h

/-- C2, amended: `load_index` falls back to an empty index (stamped now)
only when the index document is missing; a present but non-deserializable
index document is a `Manifest` error, not an empty index. -/
theorem C2_load_index_fallback (st : Store) (now : Int) :
    (st.index = none →
      load_index st now = .ok { manifests := [], last_updated := now }) ∧
    (st.index = some none →
      load_index st now = .error (.manifest "deserialize")) := by
  constructor
  · intro h; simp [load_index, h]
  · intro h; simp [load_index, h]

/-- C2, witness for the amended theorem at a concrete store. -/
theorem C2_load_index_fallback_witness :
    load_index { bodies := [], index := none } 5
      = .ok { manifests := [], last_updated := 5 } :=
  (C2_load_index_fallback { bodies := [], index := none } 5).1 rfl

/-- C6: a container whose size is at or below the chunk-size threshold is
returned unchanged by `split_into_chunks` and no part files are created. -/
theorem C6_split_noop_below_threshold (cs : Nat) (p : FsPath)
    (content : List Nat) (h : content.length ≤ cs) :
    split_into_chunks cs p content = ([p], []) := by
  simp [split_into_chunks, h]

/-- C6, witness: a 3-byte container with a 10-byte threshold. -/
theorem C6_split_noop_below_threshold_witness :
    split_into_chunks 10 { stem := "a", ext := "zip" } [1, 2, 3]
      = ([{ stem := "a", ext := "zip" }], []) :=
  C6_split_noop_below_threshold 10 { stem := "a", ext := "zip" } [1, 2, 3]
    (by decide)

/-- A concrete manifest used by the concrete-input theorems below. -/
def sampleManifest : BackupManifest :=
  { id := "a", backup_set_id := "s", created_at := 0, files := [],
    total_size := 0, compressed_size := 0, cloud_location := none,
    retention_until := none }

/-- The index summary of `sampleManifest`. -/
def sampleSummary : ManifestSummary := summaryOf sampleManifest

/-- A concrete store holding `sampleManifest` and its index entry. -/
def sampleStore : Store :=
  { bodies := [("a", some sampleManifest)],
    index := some (some { manifests := [sampleSummary], last_updated := 0 }) }

/-- C10: `update_cloud_location` on an id with no stored body returns
success and leaves the store untouched. -/
theorem C10_update_cloud_location_unknown_id (st : Store) (id : String)
    (loc : CloudLocation) (now : Int) (h : lookupBody st id = none) :
    update_cloud_location st id loc now = .ok st := by
  simp only [update_cloud_location, loadManifestById, h]
  rfl

/-- C10, witness: `sampleStore` (one body under id `"a"`) updated at the
unknown id `"b"`. -/
theorem C10_update_cloud_location_unknown_id_witness :
    update_cloud_location sampleStore "b"
        { provider := "gdrive", file_id := "f", folder_id := "d", chunks := [] } 7
      = .ok sampleStore :=
  C10_update_cloud_location_unknown_id sampleStore "b" _ 7 (by decide)

/-- Removing every association whose key is `id` makes a keyed `find?` for
`id` come up empty. -/
theorem find?_filter_ne_self {α : Type} (l : List (String × α)) (id : String) :
    (l.filter (fun b => b.1 != id)).find? (fun b => b.1 == id) = none := by
  rw [List.find?_eq_none]
  intro x hx
  have hq := List.of_mem_filter hx
  simpa using hq

/-- C8: after `delete_manifest id`, the store holds no body document and no
index entry for `id`, and `load_manifest_by_id id` returns the typed
absence `Ok(None)` rather than an error. (The index document itself must be
readable — missing or parseable — for the deletion to go through.) -/
theorem C8_delete_manifest_removes (st : Store) (id : String) (now : Int)
    (h : st.index ≠ some none) :
    ∃ st', delete_manifest st id now = .ok st' ∧
      loadManifestById st' id = .ok none ∧
      (∀ b ∈ st'.bodies, b.1 ≠ id) ∧
      (∀ ms lu, st'.index = some (some { manifests := ms, last_updated := lu }) →
        ∀ s ∈ ms, s.id ≠ id) := by
  have hbody : ∀ (ms : List ManifestSummary) (lu : Int),
      let st' : Store :=
        { bodies := st.bodies.filter (fun b => b.1 != id),
          index := some (some { manifests := ms.filter (fun s => s.id != id),
                                last_updated := lu }) }
      loadManifestById st' id = .ok none ∧
      (∀ b ∈ st'.bodies, b.1 ≠ id) ∧
      (∀ ms' lu', st'.index = some (some { manifests := ms', last_updated := lu' }) →
        ∀ s ∈ ms', s.id ≠ id) := by
    intro ms lu
    refine ⟨?_, ?_, ?_⟩
    · simp only [loadManifestById, lookupBody]
      rw [find?_filter_ne_self]
      rfl
    · intro b hb
      have := List.of_mem_filter hb
      simpa using this
    · intro ms' lu' hidx s hs
      have hms : ms.filter (fun s => s.id != id) = ms' := by
        simpa using congrArg (fun o => ((o.join).map (·.manifests)).getD []) hidx
      rw [← hms] at hs
      have := List.of_mem_filter hs
      simpa using this
  match hidx : st.index with
  | none =>
    refine ⟨_, ?_, hbody [] now⟩
    simp only [delete_manifest, load_index, hidx]
    rfl
  | some (some idx) =>
    refine ⟨_, ?_, hbody idx.manifests now⟩
    simp only [delete_manifest, load_index, hidx]
    rfl
  | some none => exact absurd hidx h

/-- C8, witness: deleting id `"a"` from a store holding its body and index
entry, then looking it up. -/
theorem C8_delete_manifest_removes_witness :
    ∃ st', delete_manifest sampleStore "a" 9 = .ok st' ∧
      loadManifestById st' "a" = .ok none ∧
      (∀ b ∈ st'.bodies, b.1 ≠ "a") ∧
      (∀ ms lu, st'.index = some (some { manifests := ms, last_updated := lu }) →
        ∀ s ∈ ms, s.id ≠ "a") :=
  C8_delete_manifest_removes sampleStore "a" 9 (by decide)

/-- Fuel-bounded induction principle for `chunkify`: everything proved at
`l.drop cs` lifts to `l`. -/
theorem chunkify_fuel (cs : Nat) (hcs : 0 < cs)
    (P : List Nat → List (List Nat) → Prop)
    (hnil : P [] [])
    (hstep : ∀ l, l ≠ [] → P (l.drop cs) (chunkify cs (l.drop cs)) →
      P l (l.take cs :: chunkify cs (l.drop cs))) :
    ∀ (n : Nat) (l : List Nat), l.length ≤ n → P l (chunkify cs l) := by
  intro n
  induction n with
  | zero =>
    intro l hl
    have : l = [] := List.length_eq_zero.mp (Nat.le_zero.mp hl)
    subst this
    rw [chunkify, dif_pos (Or.inr rfl)]
    exact hnil
  | succ n ih =>
    intro l hl
    by_cases hle : l = []
    · subst hle
      rw [chunkify, dif_pos (Or.inr rfl)]
      exact hnil
    · rw [chunkify, dif_neg (by simp [hle]; omega)]
      refine hstep l hle (ih (l.drop cs) ?_)
      have : 0 < l.length := List.length_pos.mpr hle
      simp only [List.length_drop]
      omega

/-- Concatenating the blocks of `chunkify` restores the original bytes. -/
theorem chunkify_flatten (cs : Nat) (hcs : 0 < cs) (l : List Nat) :
    (chunkify cs l).flatten = l := by
  refine chunkify_fuel cs hcs (fun l cks => cks.flatten = l) rfl ?_
      l.length l le_rfl
  intro l hl hrec
  simp [hrec]

/-- Every block of `chunkify` except possibly the last is exactly `cs`
bytes. -/
theorem chunkify_dropLast_len (cs : Nat) (hcs : 0 < cs) (l : List Nat) :
    ∀ c ∈ (chunkify cs l).dropLast, c.length = cs := by
  refine chunkify_fuel cs hcs
      (fun l cks => ∀ c ∈ cks.dropLast, c.length = cs) (by simp) ?_
      l.length l le_rfl
  intro l hl hrec c hc
  cases hrest : chunkify cs (l.drop cs) with
  | nil => simp [hrest] at hc
  | cons a t =>
    rw [hrest, List.dropLast_cons_of_ne_nil (by simp)] at hc
    rcases List.mem_cons.mp hc with hc | hc
    · subst hc
      have hdrop : l.drop cs ≠ [] := by
        intro hd
        rw [chunkify, dif_pos (Or.inr hd)] at hrest
        exact List.noConfusion hrest
      have hlt : cs < l.length := by
        by_contra hge
        exact hdrop (List.drop_eq_nil_iff.mpr (by omega))
      simp only [List.length_take]
      omega
    · rw [hrest] at hrec
      exact hrec c hc

/-- `chunkify` never produces more blocks than there are bytes. -/
theorem chunkify_length_le (cs : Nat) (hcs : 0 < cs) (l : List Nat) :
    (chunkify cs l).length ≤ l.length := by
  refine chunkify_fuel cs hcs (fun l cks => cks.length ≤ l.length) (by simp) ?_
      l.length l le_rfl
  intro l hl hrec
  have : 0 < l.length := List.length_pos.mpr hl
  simp only [List.length_cons, List.length_drop] at hrec ⊢
  omega

/-- Pairing list elements with their indices and projecting the payloads
back is the identity. -/
theorem enum_map_pair_snd {α β : Type} (g : Nat → β) (l : List α) :
    (l.enum.map (fun pc => (g pc.1, pc.2))).map Prod.snd = l := by
  rw [List.map_map]
  have h : (Prod.snd ∘ fun pc : Nat × α => (g pc.1, pc.2)) = Prod.snd := by
    funext pc
    rfl
  rw [h, List.enum_map_snd]

/-- The labels produced by pairing list elements with indexed names are the
names of `0, 1, …` in order. -/
theorem enum_map_pair_fst {α β : Type} (g : Nat → β) (l : List α) :
    (l.enum.map (fun pc => (g pc.1, pc.2))).map Prod.fst
      = (List.range l.length).map g := by
  rw [List.map_map]
  have h : (Prod.fst ∘ fun pc : Nat × α => (g pc.1, pc.2))
      = g ∘ Prod.fst := by
    funext pc
    rfl
  rw [h, ← List.map_map, List.enum_map_fst]

/-- C5: splitting a container strictly above the threshold yields part files
named `<stem>.partNNN` with sequential zero-padded indices; every part but
the last holds exactly `chunk_size` bytes; the part sizes add up to the
container's size; the original container path is neither among the created
files nor among the returned paths twice — the original is not deleted or
overwritten (its extension is none of the generated part suffixes); and the
returned paths are exactly the created parts. -/
theorem C5_split_above_threshold (cs : Nat) (p : FsPath) (content : List Nat)
    (hcs : 0 < cs) (hgt : cs < content.length)
    (hext : ∀ i < content.length, p.ext ≠ partExt i) :
    (split_into_chunks cs p content).2.map Prod.fst
        = (List.range (split_into_chunks cs p content).2.length).map
            (fun i => withExt p (partExt i)) ∧
    (∀ pc ∈ (split_into_chunks cs p content).2.dropLast, pc.2.length = cs) ∧
    ((split_into_chunks cs p content).2.map (fun pc => pc.2.length)).sum
        = content.length ∧
    p ∉ (split_into_chunks cs p content).2.map Prod.fst ∧
    (split_into_chunks cs p content).1
        = (split_into_chunks cs p content).2.map Prod.fst := by
  have hnle : ¬ content.length ≤ cs := by omega
  have hsplit : split_into_chunks cs p content
      = (((chunkify cs content).enum.map
            (fun pc => (withExt p (partExt pc.1), pc.2))).map Prod.fst,
          (chunkify cs content).enum.map
            (fun pc => (withExt p (partExt pc.1), pc.2))) := by
    simp only [split_into_chunks, if_neg hnle]
  rw [hsplit]
  have hsnd := enum_map_pair_snd (fun i => withExt p (partExt i)) (chunkify cs content)
  have hfst := enum_map_pair_fst (fun i => withExt p (partExt i)) (chunkify cs content)
  refine ⟨by rw [hfst]; simp, ?_, ?_, ?_, rfl⟩
  · intro pc hpc
    have hmem : pc.2 ∈ (chunkify cs content).dropLast := by
      have h1 : pc.2 ∈ (((chunkify cs content).enum.map
          (fun pc => (withExt p (partExt pc.1), pc.2))).dropLast).map Prod.snd :=
        List.mem_map_of_mem Prod.snd hpc
      rw [List.map_dropLast, hsnd] at h1
      exact h1
    exact chunkify_dropLast_len cs hcs content pc.2 hmem
  · have hlenmap : (((chunkify cs content).enum.map
        (fun pc => (withExt p (partExt pc.1), pc.2))).map
          (fun pc => pc.2.length)) = (chunkify cs content).map List.length := by
      have := congrArg (List.map List.length) hsnd
      rwa [List.map_map] at this
    rw [hlenmap, ← List.length_flatten, chunkify_flatten cs hcs content]
  · rw [hfst]
    intro hmem
    rcases List.mem_map.mp hmem with ⟨i, hi, hei⟩
    have hibound : i < content.length :=
      lt_of_lt_of_le (List.mem_range.mp hi) (chunkify_length_le cs hcs content)
    have : p.ext = partExt i := congrArg FsPath.ext hei.symm
    exact hext i hibound this

/-- C5, witness: a 5-byte container split with a 2-byte threshold. -/
theorem C5_split_above_threshold_witness :
    (split_into_chunks 2 { stem := "a", ext := "zip" } [1, 2, 3, 4, 5]).2.map Prod.fst
        = (List.range (split_into_chunks 2 { stem := "a", ext := "zip" }
            [1, 2, 3, 4, 5]).2.length).map
            (fun i => withExt { stem := "a", ext := "zip" } (partExt i)) ∧
    (∀ pc ∈ (split_into_chunks 2 { stem := "a", ext := "zip" }
        [1, 2, 3, 4, 5]).2.dropLast, pc.2.length = 2) ∧
    ((split_into_chunks 2 { stem := "a", ext := "zip" } [1, 2, 3, 4, 5]).2.map
        (fun pc => pc.2.length)).sum = 5 ∧
    { stem := "a", ext := "zip" } ∉ (split_into_chunks 2
        { stem := "a", ext := "zip" } [1, 2, 3, 4, 5]).2.map Prod.fst ∧
    (split_into_chunks 2 { stem := "a", ext := "zip" } [1, 2, 3, 4, 5]).1
        = (split_into_chunks 2 { stem := "a", ext := "zip" }
            [1, 2, 3, 4, 5]).2.map Prod.fst :=
  C5_split_above_threshold 2 { stem := "a", ext := "zip" } [1, 2, 3, 4, 5]
    (by decide) (by decide) (by decide)

/-- Entries of a list with `Nodup` keys are determined by their key. -/
theorem nodup_key_inj (l : List FileEntry)
    (hnd : (l.map (·.relative_path)).Nodup) :
    ∀ g ∈ l, ∀ g' ∈ l, g.relative_path = g'.relative_path → g = g' := by
  intro g hg g' hg' heq
  exact List.inj_on_of_nodup_map hnd hg hg' heq

/-- Pointwise: when the prior manifest's relative paths are distinct, the
"changed" test of `get_changed_files` (absent from the hash map, or present
with a different hash) coincides with "no prior entry has this
(relative_path, hash) pair". -/
theorem changed_pred_eq (prior : List FileEntry)
    (hnd : (prior.map (·.relative_path)).Nodup) (f : FileEntry) :
    (match backedUpHash prior f.relative_path with
     | some h => h != f.hash
     | none => true)
    = !(prior.any (fun g => g.relative_path == f.relative_path
        && g.hash == f.hash)) := by
  unfold backedUpHash
  cases hfind : prior.reverse.find? (fun g => g.relative_path == f.relative_path) with
  | none =>
    have hall := List.find?_eq_none.mp hfind
    simp only [Option.map_none']
    have : prior.any (fun g => g.relative_path == f.relative_path
        && g.hash == f.hash) = false := by
      rw [List.any_eq_false]
      intro g hg
      have := hall g (List.mem_reverse.mpr hg)
      simp only [beq_iff_eq] at this
      simp [this]
    rw [this]
    rfl
  | some g =>
    have hgp : g.relative_path = f.relative_path := by
      have := List.find?_some hfind
      simpa using this
    have hgmem : g ∈ prior := List.mem_reverse.mp (List.mem_of_find?_eq_some hfind)
    simp only [Option.map_some']
    by_cases hh : g.hash = f.hash
    · have : prior.any (fun g => g.relative_path == f.relative_path
          && g.hash == f.hash) = true := by
        rw [List.any_eq_true]
        exact ⟨g, hgmem, by simp [hgp, hh]⟩
      rw [this]
      simp [hh]
    · have : prior.any (fun g => g.relative_path == f.relative_path
          && g.hash == f.hash) = false := by
        rw [List.any_eq_false]
        intro g' hg'
        intro hcontra
        simp only [Bool.and_eq_true, beq_iff_eq] at hcontra
        have : g' = g := nodup_key_inj prior hnd g' hg' g hgmem
          (hcontra.1.trans hgp.symm)
        subst this
        exact hh hcontra.2
      rw [this]
      simp [hh]

/-- C1: for every prior manifest and fresh scan, `get_changed_files` keeps
exactly the scanned entries whose `relative_path` is absent from the prior
manifest or present with a different fingerprint, in scan order (a filter of
the scan); with no prior manifest for the set, it keeps every scanned
entry; and when every scanned (relative_path, fingerprint) pair occurs in
the prior manifest, it keeps nothing. -/
theorem C1_get_changed_files (st : Store) (setId : String) (now : Int)
    (cur : List FileEntry) (m : BackupManifest) :
    (load_manifest st setId now = .ok (some m) →
      (m.files.map (·.relative_path)).Nodup →
      get_changed_files st setId now cur = .ok (cur.filter (fun f =>
        !(m.files.any (fun g => g.relative_path == f.relative_path
            && g.hash == f.hash))))) ∧
    (load_manifest st setId now = .ok none →
      get_changed_files st setId now cur = .ok cur) ∧
    (load_manifest st setId now = .ok (some m) →
      (m.files.map (·.relative_path)).Nodup →
      (∀ f ∈ cur, ∃ g ∈ m.files,
        g.relative_path = f.relative_path ∧ g.hash = f.hash) →
      get_changed_files st setId now cur = .ok []) := by
  have hok : ∀ mm : Option BackupManifest, load_manifest st setId now = .ok mm →
      get_changed_files st setId now cur
        = .ok (cur.filter (fun f =>
            match backedUpHash ((mm.map (·.files)).getD []) f.relative_path with
            | some h => h != f.hash
            | none => true)) := by
    intro mm hld
    unfold get_changed_files
    rw [hld]
    rfl
  refine ⟨?_, ?_, ?_⟩
  · intro hld hnd
    rw [hok (some m) hld]
    simp only [Option.map_some', Option.getD_some]
    rw [List.filter_congr (fun f _ => changed_pred_eq m.files hnd f)]
  · intro hld
    rw [hok none hld]
    simp only [Option.map_none', Option.getD_none]
    have : ∀ f ∈ cur, (match backedUpHash [] f.relative_path with
      | some h => h != f.hash
      | none => true) = true := by
      intro f _
      rfl
    rw [List.filter_congr this, List.filter_true]
  · intro hld hnd hall
    rw [hok (some m) hld]
    simp only [Option.map_some', Option.getD_some]
    rw [List.filter_congr (fun f _ => changed_pred_eq m.files hnd f)]
    have : ∀ f ∈ cur, (!(m.files.any (fun g =>
        g.relative_path == f.relative_path && g.hash == f.hash))) = false := by
      intro f hf
      rcases hall f hf with ⟨g, hg, h1, h2⟩
      have : m.files.any (fun g => g.relative_path == f.relative_path
          && g.hash == f.hash) = true := by
        rw [List.any_eq_true]
        exact ⟨g, hg, by simp [h1, h2]⟩
      simp [this]
    congr 1
    rw [List.filter_eq_nil_iff]
    intro f hf
    simp only [this f hf]
    exact fun h => Bool.noConfusion h

/-- A concrete scanned file with no counterpart in `sampleManifest`. -/
def sampleFile : FileEntry :=
  { path := "/r/x.txt", relative_path := "x.txt", size := 3, hash := "h1",
    modified := 1, backed_up_at := none }

/-- C1, witness: against `sampleStore` (whose latest manifest for set `"s"`
has no files), a one-file scan is returned whole. -/
theorem C1_get_changed_files_witness :
    get_changed_files sampleStore "s" 0 [sampleFile] = .ok [sampleFile] := by
  have h := (C1_get_changed_files sampleStore "s" 0 [sampleFile]
      sampleManifest).1 (by rfl) (by decide)
  simpa using h

/-- C3, counterexample: a scan whose walk hits an I/O error on its only
entry does not abort — `filter_map(|e| e.ok())` drops the error and the scan
succeeds with an empty result. -/
theorem C3_cex_walk_error_ignored :
    scan_directory (fun _ => "") 0 "r" [] [Except.error "io error"]
      (fun _ => .error "io error") (fun _ => .error "io error") = .ok [] := rfl

/-- If some non-directory, non-excluded entry in the processed list fails
its metadata or content read, the scan loop returns an I/O error. -/
theorem scanGo_error_of_failure (hashFn : List Nat → String) (now : Int)
    (root : String) (excludes : List String)
    (meta : String → Except String FileMeta)
    (readF : String → Except String (List Nat)) :
    ∀ entries : List DirEntry,
      (∃ d ∈ entries, d.isDir = false ∧
        shouldExclude excludes d.path (fileNameOf d.path) = false ∧
        ((∃ e, meta d.path = .error e) ∨ (∃ e, readF d.path = .error e))) →
      ∃ msg, scanGo hashFn now root excludes meta readF entries
        = .error (.io msg) := by
  intro entries
  induction entries with
  | nil => rintro ⟨d, hd, _⟩; cases hd
  | cons e rest ih =>
    rintro ⟨d, hd, hdir, hexc, hfail⟩
    rw [List.mem_cons] at hd
    by_cases hedir : e.isDir
    · rw [scanGo, if_pos hedir]
      refine ih ⟨d, ?_, hdir, hexc, hfail⟩
      rcases hd with hd | hd
      · subst hd; rw [hdir] at hedir; cases hedir
      · exact hd
    · by_cases heexc : shouldExclude excludes e.path (fileNameOf e.path)
      · rw [scanGo, if_neg hedir, if_pos heexc]
        refine ih ⟨d, ?_, hdir, hexc, hfail⟩
        rcases hd with hd | hd
        · subst hd; rw [hexc] at heexc; cases heexc
        · exact hd
      · rw [scanGo, if_neg hedir, if_neg heexc]
        cases hmeta : meta e.path with
        | error msg => exact ⟨msg, rfl⟩
        | ok md =>
          cases hread : readF e.path with
          | error msg => exact ⟨msg, rfl⟩
          | ok content =>
            have hdrest : d ∈ rest := by
              rcases hd with hd | hd
              · subst hd
                rcases hfail with ⟨e', he'⟩ | ⟨e', he'⟩
                · rw [hmeta] at he'; cases he'
                · rw [hread] at he'; cases he'
              · exact hd
            rcases ih ⟨d, hdrest, hdir, hexc, hfail⟩ with ⟨msg, hmsg⟩
            refine ⟨msg, ?_⟩
            simp only [hmsg]
            rfl

/-- C3, amended: a per-file I/O error hit while reading a file's metadata or
contents aborts the entire scan with an error, but an I/O error during the
directory walk does not — entries the walk fails on are silently dropped and
the scan continues. -/
theorem C3_scan_failure_policy (hashFn : List Nat → String) (now : Int)
    (root : String) (excludes : List String)
    (walk : List (Except String DirEntry))
    (meta : String → Except String FileMeta)
    (readF : String → Except String (List Nat)) :
    (∀ l1 l2 e, scan_directory hashFn now root excludes
        (l1 ++ Except.error e :: l2) meta readF
      = scan_directory hashFn now root excludes (l1 ++ l2) meta readF) ∧
    ((∃ d, Except.ok d ∈ walk ∧ d.isDir = false ∧
        shouldExclude excludes d.path (fileNameOf d.path) = false ∧
        ((∃ e, meta d.path = .error e) ∨ (∃ e, readF d.path = .error e))) →
      ∃ msg, scan_directory hashFn now root excludes walk meta readF
        = .error (.io msg)) := by
  constructor
  · intro l1 l2 e
    unfold scan_directory
    rw [List.filterMap_append, List.filterMap_append, List.filterMap_cons]
    rfl
  · rintro ⟨d, hd, hdir, hexc, hfail⟩
    refine scanGo_error_of_failure hashFn now root excludes meta readF _
      ⟨d, ?_, hdir, hexc, hfail⟩
    rw [List.mem_filterMap]
    exact ⟨Except.ok d, hd, rfl⟩

/-- C3, witness for the amended theorem: a one-file walk whose metadata read
is denied errors out; a detached walk-error item is dropped. -/
theorem C3_scan_failure_policy_witness :
    ∃ msg, scan_directory (fun _ => "h") 0 "r" []
        [Except.ok { path := "r/a.txt", isDir := false }]
        (fun _ => Except.error "permission denied")
        (fun _ => Except.error "permission denied") = .error (.io msg) :=
  (C3_scan_failure_policy (fun _ => "h") 0 "r" []
      [Except.ok { path := "r/a.txt", isDir := false }]
      (fun _ => Except.error "permission denied")
      (fun _ => Except.error "permission denied")).2
    ⟨{ path := "r/a.txt", isDir := false }, List.mem_singleton.mpr rfl, rfl,
      rfl, Or.inl ⟨"permission denied", rfl⟩⟩

/-- C9, counterexample: for a one-file archive, the single `Compressing`
event the code emits differs from the event the claim describes — the code
fires the callback before the file with `processed_files = 0` and
`processed_bytes = 0`, not after it with the file counted. -/
theorem C9_cex_events_not_post :
    archiveEvents [sampleFile] ≠ archiveEventsSpec [sampleFile] := by
  decide

/-- The archive loop with arbitrary starting counters emits one event per
remaining file, in order, carrying the counters as they stand before that
file. -/
theorem archiveGo_eq (tf tb : Nat) (files : List FileEntry) :
    ∀ pf pb, archiveGo tf tb pf pb files
      = (List.range files.length).map (fun i =>
          { total_files := tf, processed_files := pf + i, total_bytes := tb,
            processed_bytes := pb + ((files.take i).map (·.size)).sum,
            current_file := ((files.drop i).headI).relative_path,
            status := .compressing, error := none }) := by
  induction files with
  | nil => intro pf pb; rfl
  | cons f rest ih =>
    intro pf pb
    rw [show archiveGo tf tb pf pb (f :: rest)
        = ({ total_files := tf, processed_files := pf, total_bytes := tb,
             processed_bytes := pb, current_file := f.relative_path,
             status := .compressing, error := none } ::
           archiveGo tf tb (pf + 1) (pb + f.size) rest) from rfl,
      ih (pf + 1) (pb + f.size), List.length_cons, List.range_succ_eq_map,
      List.map_cons, List.map_map]
    congr 1
    refine List.map_congr_left ?_
    intro i _
    simp only [Function.comp_apply, List.take_succ_cons, List.map_cons,
      List.sum_cons, List.drop_succ_cons, List.map_take,
      BackupProgress.mk.injEq, and_true, true_and]
    omega

/-- C9, amended: `create_archive` emits exactly one `Compressing` progress
event per file, synchronously in strict file order, but each event fires
*before* its file is compressed and carries the totals together with the
files/bytes processed *so far* (the current file not yet counted). -/
theorem C9_archive_events (files : List FileEntry) :
    (archiveEvents files).length = files.length ∧
    archiveEvents files
      = (List.range files.length).map (fun i =>
          { total_files := files.length, processed_files := i,
            total_bytes := (files.map (·.size)).sum,
            processed_bytes := ((files.take i).map (·.size)).sum,
            current_file := ((files.drop i).headI).relative_path,
            status := .compressing, error := none }) := by
  have h := archiveGo_eq files.length ((files.map (·.size)).sum) files 0 0
  simp only [Nat.zero_add] at h
  constructor
  · rw [show archiveEvents files
        = archiveGo files.length ((files.map (·.size)).sum) 0 0 files from rfl,
      h]
    simp
  · exact h

/-- C4, counterexample: a US-Eastern-shaped spring-forward (offset −300 min
before the transition at instant 420, −240 min after, so local 02:00–03:00
does not exist), evaluated at instant 360 (local 01:00 standard time) with
the valid configured time-of-day 02:00 (minute 120): the computed wall-clock
time falls in the gap, the naive-as-UTC reinterpretation yields instant 120,
and 120 is strictly *before* now = 360 — `calculate_next_run` returns an
instant in the past across this DST transition. -/
theorem C4_cex_dst_gap_returns_past :
    (0 : Int) ≤ 120 ∧ (120 : Int) < 1440 ∧
    fromLocalNaive { offBefore := -300, offAfter := -240, transition := 420 }
      (dailyNextNaive { offBefore := -300, offAfter := -240, transition := 420 }
        360 120) = .gap ∧
    calculate_next_run_daily
      { offBefore := -300, offAfter := -240, transition := 420 } 360 120 = 120 ∧
    (120 : Int) < 360 := by
  refine ⟨by norm_num, by norm_num, ?_, ?_, by norm_num⟩
  · decide
  · decide

/-- C4, amended: for every Daily schedule with a valid time-of-day, whenever
the computed wall-clock target exists or is ambiguous (i.e. resolution does
not hit a spring-forward gap), `calculate_next_run` produces an instant
strictly after now — today's occurrence if the naive clock has not reached
it, else tomorrow's; in the gap case the naive-as-UTC reinterpretation can
return an instant at or before now. -/
theorem C4_daily_next_run_future (tz : Timezone) (nowUtc timeOfDay : Int)
    (ht0 : 0 ≤ timeOfDay) (ht1 : timeOfDay < 1440)
    (hng : fromLocalNaive tz (dailyNextNaive tz nowUtc timeOfDay) ≠ .gap) :
    nowUtc < calculate_next_run_daily tz nowUtc timeOfDay := by
  have hnaive : toLocalNaive tz nowUtc < dailyNextNaive tz nowUtc timeOfDay := by
    unfold dailyNextNaive
    set nn := toLocalNaive tz nowUtc with hnn
    have hmod := Int.fdiv_add_fmod nn 1440
    have hm0 := Int.fmod_nonneg' nn (b := 1440) (by norm_num)
    have hm1 := Int.fmod_lt_of_pos nn (b := 1440) (by norm_num)
    by_cases hc : nn < 1440 * Int.fdiv nn 1440 + timeOfDay
    · rw [if_pos hc]
      exact hc
    · rw [if_neg hc]
      omega
  unfold calculate_next_run_daily
  set n := dailyNextNaive tz nowUtc timeOfDay with hn
  have hoffs : (nowUtc < tz.transition →
        toLocalNaive tz nowUtc = nowUtc + tz.offBefore) ∧
      (tz.transition ≤ nowUtc →
        toLocalNaive tz nowUtc = nowUtc + tz.offAfter) := by
    constructor
    · intro hlt
      simp [toLocalNaive, localOffset, hlt]
    · intro hge
      simp [toLocalNaive, localOffset, Int.not_lt.mpr hge]
  unfold fromLocalNaive at hng ⊢
  by_cases h1 : n - tz.offBefore < tz.transition
  · by_cases h2 : tz.transition ≤ n - tz.offAfter
    · simp only [h1, h2, if_pos, if_true]
      rw [max_eq_right min_le_max]
      rcases Int.lt_or_le nowUtc tz.transition with hside | hside
      · have hoff := hoffs.1 hside
        calc nowUtc < n - tz.offBefore := by omega
          _ ≤ max (n - tz.offBefore) (n - tz.offAfter) := le_max_left _ _
      · have hoff := hoffs.2 hside
        calc nowUtc < n - tz.offAfter := by omega
          _ ≤ max (n - tz.offBefore) (n - tz.offAfter) := le_max_right _ _
    · simp only [h1, h2, if_pos, if_false, if_true]
      rcases Int.lt_or_le nowUtc tz.transition with hside | hside
      · have hoff := hoffs.1 hside
        omega
      · have hoff := hoffs.2 hside
        omega
  · by_cases h2 : tz.transition ≤ n - tz.offAfter
    · simp only [h1, h2, if_neg, if_false, if_true]
      rcases Int.lt_or_le nowUtc tz.transition with hside | hside
      · omega
      · have hoff := hoffs.2 hside
        omega
    · exfalso
      apply hng
      simp [h1, h2]

/-- C4, witness for the amended theorem: a transition far in the future
keeps the resolution in the `single` case; at now = 100 with time-of-day
02:00 the next run (instant 120, offsets zero) is strictly after now. -/
theorem C4_daily_next_run_future_witness :
    (100 : Int) < calculate_next_run_daily
      { offBefore := 0, offAfter := 0, transition := 100000 } 100 120 :=
  C4_daily_next_run_future { offBefore := 0, offAfter := 0, transition := 100000 }
    100 120 (by norm_num) (by norm_num) (by decide)

/-! ## Cleanup of expired manifests -/

/-- The ids `cleanup_expired` is specified to delete from a snapshot `L` of
index entries: those whose body is live in `st` with a `retention_until`
before `now`, in index order. -/
def expiredIds (st : Store) (now : Int) (L : List ManifestSummary) :
    List String :=
  (L.filter (expiredIn st now)).map (·.id)

/-- Dropping the associations of one key does not change a keyed `find?`
for another key. -/
theorem find?_key_filter {α : Type} (l : List (String × α)) (a b : String)
    (hne : b ≠ a) :
    (l.filter (fun x => x.1 != a)).find? (fun x => x.1 == b)
      = l.find? (fun x => x.1 == b) := by
  induction l with
  | nil => rfl
  | cons x xs ih =>
    by_cases hxb : x.1 = b
    · have hxa : (x.1 != a) = true := by simp [hxb, hne]
      rw [List.filter_cons, if_pos hxa, List.find?_cons_of_pos _ (by simp [hxb]),
        List.find?_cons_of_pos _ (by simp [hxb])]
    · by_cases hxa : x.1 = a
      · rw [List.filter_cons, if_neg (by simp [hxa]),
          List.find?_cons_of_neg _ (by simp [hxb]), ih]
      · rw [List.filter_cons, if_pos (by simp [hxa]),
          List.find?_cons_of_neg _ (by simp [hxb]),
          List.find?_cons_of_neg _ (by simp [hxb]), ih]

/-- A keyed `find?` in a list with distinct keys returns exactly the member
with that key. -/
theorem find?_eq_of_mem_nodup {α : Type} (l : List (String × α))
    (hnd : (l.map (·.1)).Nodup) (b : String × α) (hb : b ∈ l) :
    l.find? (fun x => x.1 == b.1) = some b := by
  induction l with
  | nil => cases hb
  | cons x xs ih =>
    rcases List.mem_cons.mp hb with hb' | hb'
    · subst hb'
      exact List.find?_cons_of_pos _ (by simp)
    · have hxne : x.1 ≠ b.1 := by
        intro he
        have : b.1 ∈ xs.map (·.1) := List.mem_map_of_mem _ hb'
        rw [← he] at this
        exact (List.nodup_cons.mp hnd).1 this
      rw [List.find?_cons_of_neg _ (by simp [hxne]), ih (List.nodup_cons.mp hnd).2 hb']

/-- `expiredIn` only inspects the bodies, and deleting the body of a
different id leaves the inspection unchanged. -/
theorem expiredIn_delete_ne (st : Store) (now : Int) (a : String)
    (ix : Option (Option ManifestIndex)) (s : ManifestSummary)
    (hne : s.id ≠ a) :
    expiredIn { bodies := st.bodies.filter (fun b => b.1 != a), index := ix }
        now s = expiredIn st now s := by
  unfold expiredIn lookupBody
  rw [show ({ bodies := st.bodies.filter (fun b => b.1 != a), index := ix }
      : Store).bodies = st.bodies.filter (fun b => b.1 != a) from rfl,
    find?_key_filter st.bodies a s.id hne]

/-- `expiredIds` over a snapshot only depends on `expiredIn` at its
entries. -/
theorem expiredIds_congr (st1 st2 : Store) (now : Int)
    (L : List ManifestSummary)
    (h : ∀ s ∈ L, expiredIn st1 now s = expiredIn st2 now s) :
    expiredIds st1 now L = expiredIds st2 now L := by
  unfold expiredIds
  rw [List.filter_congr h]

/-- When the index document is parseable, `delete_manifest` succeeds and
rewrites store and index by dropping the id. -/
theorem delete_manifest_ok (st : Store) (a : String) (now : Int)
    (ms0 : List ManifestSummary) (lu0 : Int)
    (hidx : st.index = some (some { manifests := ms0, last_updated := lu0 })) :
    delete_manifest st a now
      = .ok { bodies := st.bodies.filter (fun b => b.1 != a),
              index := some (some { manifests := ms0.filter (fun s => s.id != a),
                                    last_updated := now }) } := by
  unfold delete_manifest load_index
  rw [show ({ st with bodies := st.bodies.filter (fun b => b.1 != a) }
      : Store).index = st.index from rfl, hidx]
  rfl

/-- Loop step: an id with no stored body is skipped. -/
theorem cleanupGo_cons_nobody (now : Int) (s : ManifestSummary)
    (rest : List ManifestSummary) (st : Store)
    (hlb : lookupBody st s.id = none) :
    cleanupGo now (s :: rest) st = cleanupGo now rest st := by
  rw [cleanupGo, loadManifestById, hlb]
  rfl

/-- Loop step: a live body with no `retention_until` is skipped. -/
theorem cleanupGo_cons_noret (now : Int) (s : ManifestSummary)
    (rest : List ManifestSummary) (st : Store) (m : BackupManifest)
    (hlb : lookupBody st s.id = some (some m))
    (hret : m.retention_until = none) :
    cleanupGo now (s :: rest) st = cleanupGo now rest st := by
  rw [cleanupGo, loadManifestById, hlb]
  show (match m.retention_until with
    | some r => if r < now then _ else cleanupGo now rest st
    | none => cleanupGo now rest st) = cleanupGo now rest st
  rw [hret]

/-- Loop step: a live body whose `retention_until` has not passed is
skipped. -/
theorem cleanupGo_cons_notdue (now : Int) (s : ManifestSummary)
    (rest : List ManifestSummary) (st : Store) (m : BackupManifest) (r : Int)
    (hlb : lookupBody st s.id = some (some m))
    (hret : m.retention_until = some r) (hlt : ¬ r < now) :
    cleanupGo now (s :: rest) st = cleanupGo now rest st := by
  rw [cleanupGo, loadManifestById, hlb]
  show (match m.retention_until with
    | some r => if r < now then _ else cleanupGo now rest st
    | none => cleanupGo now rest st) = cleanupGo now rest st
  rw [hret]
  show (if r < now then _ else cleanupGo now rest st) = cleanupGo now rest st
  rw [if_neg hlt]

/-- Loop step: a live body whose `retention_until` precedes `now` is
deleted, the loop continues on the resulting store, and the id is prepended
to the deletions. -/
theorem cleanupGo_cons_due (now : Int) (s : ManifestSummary)
    (rest : List ManifestSummary) (st st1 st2 : Store) (m : BackupManifest)
    (r : Int) (ds : List String)
    (hlb : lookupBody st s.id = some (some m))
    (hret : m.retention_until = some r) (hlt : r < now)
    (hdel : delete_manifest st s.id now = .ok st1)
    (hgo : cleanupGo now rest st1 = .ok (st2, ds)) :
    cleanupGo now (s :: rest) st = .ok (st2, s.id :: ds) := by
  rw [cleanupGo, loadManifestById, hlb]
  show (match m.retention_until with
    | some r => if r < now then
        (do
          let st1 ← delete_manifest st s.id now
          let (st2, ds) ← cleanupGo now rest st1
          Except.ok (st2, s.id :: ds))
      else cleanupGo now rest st
    | none => cleanupGo now rest st) = .ok (st2, s.id :: ds)
  rw [hret]
  show (if r < now then
      (do
        let st1 ← delete_manifest st s.id now
        let (st2, ds) ← cleanupGo now rest st1
        Except.ok (st2, s.id :: ds))
    else cleanupGo now rest st) = .ok (st2, s.id :: ds)
  rw [if_pos hlt, hdel]
  show (do
      let (st2, ds) ← cleanupGo now rest st1
      Except.ok (st2, s.id :: ds) : Except BackupError (Store × List String))
    = .ok (st2, s.id :: ds)
  rw [hgo]
  rfl

/-- Removing the elements keyed `a` and then those keyed in `E` is one
filter against `a :: E`. -/
theorem filter_key_cons {α : Type} (key : α → String) (l : List α)
    (a : String) (E : List String) :
    (l.filter (fun x => key x != a)).filter (fun x => !(decide (key x ∈ E)))
      = l.filter (fun x => !(decide (key x ∈ a :: E))) := by
  rw [List.filter_filter]
  refine List.filter_congr ?_
  intro x _
  by_cases h1 : key x = a
  · simp [h1]
  · by_cases h2 : key x ∈ E
    · simp [h1, h2]
    · simp [h1, h2]

/-- A stored body looked up through a `some` result of `lookupBody` is one
of the stored pairs. -/
theorem lookupBody_some_mem (st : Store) (id : String)
    (ob : Option BackupManifest) (h : lookupBody st id = some ob) :
    ∃ pr ∈ st.bodies, pr.1 = id ∧ pr.2 = ob := by
  unfold lookupBody at h
  cases hf : st.bodies.find? (fun b => b.1 == id) with
  | none => rw [hf] at h; cases h
  | some pr =>
    rw [hf] at h
    refine ⟨pr, List.mem_of_find?_eq_some hf, ?_, by simpa using h⟩
    have := List.find?_some hf
    simpa using this

/-- The invariant the cleanup loop maintains over the snapshot `L` of index
entries: it succeeds, returns exactly the expired ids of `L` in order, and
the final store is the initial one purged of precisely those ids (bodies and
index entries). -/
theorem cleanupGo_spec (now : Int) :
    ∀ (L : List ManifestSummary) (st : Store) (ms0 : List ManifestSummary)
      (lu0 : Int),
      st.index = some (some { manifests := ms0, last_updated := lu0 }) →
      (∀ b ∈ st.bodies, b.2.isSome = true) →
      (L.map (·.id)).Nodup →
      ∃ st' lu,
        cleanupGo now L st = .ok (st', expiredIds st now L) ∧
        st'.bodies = st.bodies.filter
          (fun b => !(decide (b.1 ∈ expiredIds st now L))) ∧
        st'.index = some (some
          { manifests :=
              ms0.filter (fun s => !(decide (s.id ∈ expiredIds st now L))),
            last_updated := lu }) := by
  intro L
  induction L with
  | nil =>
    intro st ms0 lu0 hidx hb hnd
    refine ⟨st, lu0, rfl, ?_, ?_⟩
    · simp [expiredIds]
    · rw [hidx]
      simp [expiredIds]
  | cons s rest ih =>
    intro st ms0 lu0 hidx hb hnd
    rw [List.map_cons, List.nodup_cons] at hnd
    obtain ⟨hid, htl⟩ := hnd
    have hne_tail : ∀ s' ∈ rest, s'.id ≠ s.id := by
      intro s' hs' he
      exact hid (he ▸ List.mem_map_of_mem _ hs')
    cases hlb : lookupBody st s.id with
    | none =>
      have hexp : expiredIn st now s = false := by
        unfold expiredIn
        rw [hlb]
      have hE : expiredIds st now (s :: rest) = expiredIds st now rest := by
        unfold expiredIds
        rw [List.filter_cons, if_neg (by simp [hexp])]
      obtain ⟨st', lu, h1, h2, h3⟩ := ih st ms0 lu0 hidx hb htl
      refine ⟨st', lu, ?_, by rw [hE]; exact h2, by rw [hE]; exact h3⟩
      rw [cleanupGo_cons_nobody now s rest st hlb, hE]
      exact h1
    | some ob =>
      obtain ⟨pr, hprmem, hprid, hprval⟩ := lookupBody_some_mem st s.id ob hlb
      have hsome : ob.isSome = true := hprval ▸ hb pr hprmem
      obtain ⟨m, hm⟩ := Option.isSome_iff_exists.mp hsome
      subst hm
      cases hret : m.retention_until with
      | none =>
        have hexp : expiredIn st now s = false := by
          unfold expiredIn
          rw [hlb]
          show (match m.retention_until with
            | some r => decide (r < now)
            | none => false) = false
          rw [hret]
        have hE : expiredIds st now (s :: rest) = expiredIds st now rest := by
          unfold expiredIds
          rw [List.filter_cons, if_neg (by simp [hexp])]
        obtain ⟨st', lu, h1, h2, h3⟩ := ih st ms0 lu0 hidx hb htl
        refine ⟨st', lu, ?_, by rw [hE]; exact h2, by rw [hE]; exact h3⟩
        rw [cleanupGo_cons_noret now s rest st m hlb hret, hE]
        exact h1
      | some r =>
        by_cases hlt : r < now
        · -- expired: delete and continue on the purged store
          have hexp : expiredIn st now s = true := by
            unfold expiredIn
            rw [hlb]
            show (match m.retention_until with
              | some r => decide (r < now)
              | none => false) = true
            rw [hret]
            simpa using hlt
          have hdel := delete_manifest_ok st s.id now ms0 lu0 hidx
          have hb1 : ∀ b ∈ st.bodies.filter (fun b => b.1 != s.id),
              b.2.isSome = true := by
            intro b hb'
            exact hb b (List.mem_of_mem_filter hb')
          obtain ⟨st', lu, h1, h2, h3⟩ := ih
            { bodies := st.bodies.filter (fun b => b.1 != s.id),
              index := some (some { manifests := ms0.filter (fun x => x.id != s.id),
                                    last_updated := now }) }
            (ms0.filter (fun x => x.id != s.id)) now rfl hb1 htl
          have hE1 : expiredIds
              { bodies := st.bodies.filter (fun b => b.1 != s.id),
                index := some (some { manifests := ms0.filter (fun x => x.id != s.id),
                                      last_updated := now }) } now rest
              = expiredIds st now rest := by
            refine expiredIds_congr _ _ now rest ?_
            intro s' hs'
            exact expiredIn_delete_ne st now s.id _ s' (hne_tail s' hs')
          have hEcons : expiredIds st now (s :: rest)
              = s.id :: expiredIds st now rest := by
            unfold expiredIds
            rw [List.filter_cons, if_pos (by simp [hexp])]
            rfl
          rw [hE1] at h1 h2 h3
          refine ⟨st', lu, ?_, ?_, ?_⟩
          · rw [cleanupGo_cons_due now s rest st _ st' m r
              (expiredIds st now rest) hlb hret hlt hdel h1, hEcons]
          · rw [hEcons, h2]
            exact filter_key_cons (fun b => b.1) st.bodies s.id
              (expiredIds st now rest)
          · rw [hEcons, h3]
            rw [filter_key_cons (fun x => x.id) ms0 s.id
              (expiredIds st now rest)]
        · -- live body, retention not yet passed: skipped
          have hexp : expiredIn st now s = false := by
            unfold expiredIn
            rw [hlb]
            show (match m.retention_until with
              | some r => decide (r < now)
              | none => false) = false
            rw [hret]
            simpa using hlt
          have hE : expiredIds st now (s :: rest) = expiredIds st now rest := by
            unfold expiredIds
            rw [List.filter_cons, if_neg (by simp [hexp])]
          obtain ⟨st', lu, h1, h2, h3⟩ := ih st ms0 lu0 hidx hb htl
          refine ⟨st', lu, ?_, by rw [hE]; exact h2, by rw [hE]; exact h3⟩
          rw [cleanupGo_cons_notdue now s rest st m r hlb hret hlt, hE]
          exact h1

/-- `expiredIn` holds exactly when the id's body is stored, deserializable,
and carries a `retention_until` before `now`. -/
theorem expiredIn_true_iff (st : Store) (now : Int) (s : ManifestSummary) :
    expiredIn st now s = true ↔
      ∃ m r, lookupBody st s.id = some (some m) ∧
        m.retention_until = some r ∧ r < now := by
  unfold expiredIn
  cases h : lookupBody st s.id with
  | none => simp
  | some ob =>
    cases ob with
    | none => simp
    | some m =>
      cases hr : m.retention_until with
      | none => simp [hr]
      | some r => simp [hr]

/-- C7: on a well-formed store (parseable index, distinct ids, deserializable
bodies), `cleanup_expired` succeeds and deletes exactly the indexed
manifests whose `retention_until` precedes `now` — their bodies and index
entries are removed, everything else is kept, the returned ids are precisely
the deleted ones in index order, and a manifest with no `retention_until` is
never deleted. -/
theorem C7_cleanup_expired_exact (st : Store) (now : Int)
    (idx : ManifestIndex)
    (hidx : st.index = some (some idx))
    (hnd : (idx.manifests.map (·.id)).Nodup)
    (hbnd : (st.bodies.map (·.1)).Nodup)
    (hb : ∀ b ∈ st.bodies, b.2.isSome = true) :
    ∃ st' lu,
      cleanup_expired st now = .ok (st', expiredIds st now idx.manifests) ∧
      st'.bodies = st.bodies.filter
        (fun b => !(decide (b.1 ∈ expiredIds st now idx.manifests))) ∧
      st'.index = some (some
        { manifests :=
            idx.manifests.filter
              (fun s => !(decide (s.id ∈ expiredIds st now idx.manifests))),
          last_updated := lu }) ∧
      (∀ i ∈ expiredIds st now idx.manifests, ∃ s ∈ idx.manifests,
        s.id = i ∧ ∃ m r, lookupBody st s.id = some (some m) ∧
          m.retention_until = some r ∧ r < now) ∧
      (∀ s ∈ idx.manifests, ∀ m r, lookupBody st s.id = some (some m) →
        m.retention_until = some r → r < now →
        s.id ∈ expiredIds st now idx.manifests) ∧
      (∀ b ∈ st.bodies, ∀ m, b.2 = some m → m.retention_until = none →
        b ∈ st'.bodies) := by
  obtain ⟨st', lu, h1, h2, h3⟩ :=
    cleanupGo_spec now idx.manifests st idx.manifests idx.last_updated hidx
      hb hnd
  have hrun : cleanup_expired st now = cleanupGo now idx.manifests st := by
    unfold cleanup_expired load_index
    rw [hidx]
    rfl
  refine ⟨st', lu, by rw [hrun]; exact h1, h2, h3, ?_, ?_, ?_⟩
  · intro i hi
    unfold expiredIds at hi
    rcases List.mem_map.mp hi with ⟨s, hs, hsid⟩
    rcases List.mem_filter.mp hs with ⟨hsmem, hsexp⟩
    exact ⟨s, hsmem, hsid, (expiredIn_true_iff st now s).mp hsexp⟩
  · intro s hs m r hlb hret hlt
    have hsexp : expiredIn st now s = true :=
      (expiredIn_true_iff st now s).mpr ⟨m, r, hlb, hret, hlt⟩
    exact List.mem_map_of_mem _ (List.mem_filter.mpr ⟨hs, hsexp⟩)
  · intro b hbmem m hbval hret
    have hnotin : b.1 ∉ expiredIds st now idx.manifests := by
      intro hin
      unfold expiredIds at hin
      rcases List.mem_map.mp hin with ⟨s, hs, hsid⟩
      rcases List.mem_filter.mp hs with ⟨_, hsexp⟩
      rcases (expiredIn_true_iff st now s).mp hsexp with ⟨m', r', hlb', hret', _⟩
      have hfind : st.bodies.find? (fun x => x.1 == b.1) = some b :=
        find?_eq_of_mem_nodup st.bodies hbnd b hbmem
      rw [hsid] at hlb'
      unfold lookupBody at hlb'
      rw [hfind] at hlb'
      have : b.2 = some m' := by simpa using hlb'
      rw [hbval] at this
      have : m.retention_until = some r' := by
        cases this
        exact hret'
      rw [hret] at this
      cases this
    rw [h2]
    exact List.mem_filter.mpr ⟨hbmem, by simp [hnotin]⟩

/-- C7, witness: `sampleStore` (one manifest, no `retention_until`) cleaned
at instant 9 — nothing is expired, everything survives. -/
theorem C7_cleanup_expired_exact_witness :
    ∃ st' lu,
      cleanup_expired sampleStore 9
          = .ok (st', expiredIds sampleStore 9 [sampleSummary]) ∧
      st'.bodies = sampleStore.bodies.filter
        (fun b => !(decide (b.1 ∈ expiredIds sampleStore 9 [sampleSummary]))) ∧
      st'.index = some (some
        { manifests :=
            [sampleSummary].filter
              (fun s => !(decide (s.id ∈ expiredIds sampleStore 9 [sampleSummary]))),
          last_updated := lu }) ∧
      (∀ i ∈ expiredIds sampleStore 9 [sampleSummary], ∃ s ∈ [sampleSummary],
        s.id = i ∧ ∃ m r, lookupBody sampleStore s.id = some (some m) ∧
          m.retention_until = some r ∧ r < 9) ∧
      (∀ s ∈ [sampleSummary], ∀ m r, lookupBody sampleStore s.id = some (some m) →
        m.retention_until = some r → r < 9 →
        s.id ∈ expiredIds sampleStore 9 [sampleSummary]) ∧
      (∀ b ∈ sampleStore.bodies, ∀ m, b.2 = some m → m.retention_until = none →
        b ∈ st'.bodies) :=
  C7_cleanup_expired_exact sampleStore 9
    { manifests := [sampleSummary], last_updated := 0 } rfl (by decide)
    (by decide) (by decide)

end Sentry
